import Mathlib

/-!
Shallow embedding of the container core of `src/cendf/dstructures.c`.

Modelling conventions:
* C `float` values are modelled as `ℚ`.  Every arithmetic operation the
  claims exercise (comparison, the linear-interpolation formula) is exact on
  the rationals, mirroring the symbolic expressions the C code computes.
* Fallible C functions that signal failure through a sentinel return value
  (`-1.0f`, `FLT_MIN`, `FLT_MAX`) or a `bool` are modelled with `Option`
  (`none` = the sentinel/failure) or with an explicit `Bool × state` pair.
* Heap allocation is assumed to succeed; the allocation-failure branches of
  the C code are not modelled.
* `size_t` quantities stay in `ℕ`; the string hash applies the `% 2^64`
  wrap of `size_t` at every step.
* C strings (keys, buffer contents) are modelled as Lean `String`s compared
  by equality, matching `strcmp(...) == 0` for NUL-free byte strings.
-/

/-- Constant `XSEC_THRESHOLD` from dstructures.c: 1 MiB element threshold. -/
def XSEC_THRESHOLD : ℕ := 1 * 1024 * 1024

/-- Constant `XSEC_FIXED_AMOUNT` from dstructures.c: fixed growth increment. -/
def XSEC_FIXED_AMOUNT : ℕ := 1 * 1024 * 1024

/-- The capacity-growth computation shared by `push_xsec`,
`push_back_vector`, `push_front_vector` and `insert_vector`:
`new_alloc = alloc == 0 ? 1 : alloc;` then doubling below the threshold,
else adding the fixed amount. -/
def grow_alloc (alloc : ℕ) : ℕ :=
  let n := if alloc = 0 then 1 else alloc
  if n < XSEC_THRESHOLD then n * 2 else n + XSEC_FIXED_AMOUNT

-- ================================================================
-- XSEC_T (SampleTable)

/-- Struct `xsec_t`: the live prefixes of the `xs` and `energy` arrays
(`len` is `xs.length`; in every reachable state `energy.length = xs.length`),
plus the allocated capacity `alloc`. -/
structure xsec_t where
  xs : List ℚ
  energy : List ℚ
  alloc : ℕ
  deriving Repr, DecidableEq

/-- Function `init_xsec`: both arrays allocated at `buffer_length`, `len = 0`. -/
def init_xsec (buffer_length : ℕ) : xsec_t :=
  { xs := [], energy := [], alloc := buffer_length }

/-- Function `xsec_size`: returns `len`. -/
def xsec_size (c : xsec_t) : ℕ := c.xs.length

/-- Function `xsec_alloc`: returns `alloc`. -/
def xsec_alloc (c : xsec_t) : ℕ := c.alloc

/-- Function `push_xsec`: grows (by `grow_alloc`) when `alloc <= len`, then appends
the pair to both arrays.  Reallocation is modelled as succeeding. -/
def push_xsec (c : xsec_t) (xsec energy : ℚ) : xsec_t :=
  let c := if c.alloc ≤ c.xs.length then { c with alloc := grow_alloc c.alloc } else c
  { c with xs := c.xs ++ [xsec], energy := c.energy ++ [energy] }

/-- Outcome of `find_indices` (out-parameters plus `bool`/`errno` folded
into one result). `wrapped` marks the branch where the C code would set
`high = mid - 1` with `mid == 0`, wrapping the unsigned index and scanning
out of bounds (undefined behaviour); it is unreachable for the inputs
`interp_xsec` supplies under the sortedness precondition. -/
inductive FindRes where
  | below
  | above
  | exact (i : ℕ)
  | between (lower upper : ℕ)
  | wrapped
  deriving Repr, DecidableEq

/-- The `while (low <= high)` binary-search loop of `find_indices`,
with explicit fuel (the caller passes enough fuel for the loop to finish;
exhausted fuel is folded into `wrapped`). -/
def fi_loop (array : List ℚ) (value : ℚ) : ℕ → ℕ → ℕ → FindRes
  | 0, _, _ => .wrapped
  | fuel + 1, low, high =>
    if low ≤ high then
      let mid := low + (high - low) / 2
      if array.getD mid 0 = value then .exact mid
      else if array.getD mid 0 < value then fi_loop array value fuel (mid + 1) high
      else if mid = 0 then .wrapped
      else fi_loop array value fuel low (mid - 1)
    else .between high low

/-- Function `find_indices`: range checks against `array[0]` and `array[size-1]`,
then the binary-search loop over `[0, size-1]`. -/
def find_indices (array : List ℚ) (size : ℕ) (value : ℚ) : FindRes :=
  let low : ℕ := 0
  let high : ℕ := size - 1
  if value < array.getD low 0 then .below
  else if array.getD high 0 < value then .above
  else fi_loop array value (size + 1) low high

/-- Function `interp_xsec`: `none` models the `-1.0f` sentinel (null/empty/out of
range).  On an exact match returns `xs[lower]`; otherwise the linear
interpolation between adjacent indices. -/
def interp_xsec (x : xsec_t) (energy : ℚ) : Option ℚ :=
  if x.xs.length = 0 then none
  else
    match find_indices x.energy x.xs.length energy with
    | .exact i => some (x.xs.getD i 0)
    | .below => none
    | .above => none
    | .wrapped => none
    | .between lower upper =>
      let E1 := x.energy.getD lower 0
      let E2 := x.energy.getD upper 0
      let XS1 := x.xs.getD lower 0
      let XS2 := x.xs.getD upper 0
      some (XS1 + (XS2 - XS1) * (energy - E1) / (E2 - E1))

-- ================================================================
-- VECTOR_T (DynamicArray)

/-- Struct `vector_t`: live prefix of the data array plus capacity. -/
structure vector_t where
  data : List ℚ
  alloc : ℕ
  deriving Repr, DecidableEq

/-- Function `init_vector`: capacity `len`, zero length. -/
def init_vector (len : ℕ) : vector_t := { data := [], alloc := len }

/-- Function `vector_size`: returns `len`. -/
def vector_size (v : vector_t) : ℕ := v.data.length

/-- Function `vector_alloc`: returns `alloc`. -/
def vector_alloc (v : vector_t) : ℕ := v.alloc

/-- Function `push_back_vector`: grow when `alloc <= len`, then append. -/
def push_back_vector (v : vector_t) (dat : ℚ) : vector_t :=
  let v := if v.alloc ≤ v.data.length then { v with alloc := grow_alloc v.alloc } else v
  { v with data := v.data ++ [dat] }

/-- Function `push_front_vector`: grow when `alloc <= len`, shift right
(`memmove`), insert at index 0. -/
def push_front_vector (v : vector_t) (dat : ℚ) : vector_t :=
  let v := if v.alloc ≤ v.data.length then { v with alloc := grow_alloc v.alloc } else v
  { v with data := dat :: v.data }

/-- Function `insert_vector`: index bound check (`index > len` fails with `ERANGE`,
modelled as `none`, the vector unchanged), delegation to the front/back
pushes at the edges, otherwise grow, shift `[index, len)` right and store
at `index`. -/
def insert_vector (v : vector_t) (dat : ℚ) (index : ℕ) : Option vector_t :=
  if index > v.data.length then none
  else if index = 0 then some (push_front_vector v dat)
  else if index = v.data.length then some (push_back_vector v dat)
  else
    let v := if v.alloc ≤ v.data.length then { v with alloc := grow_alloc v.alloc } else v
    some { v with data := v.data.take index ++ dat :: v.data.drop index }

/-- Function `pop_back_vector`: `none` models the `FLT_MIN` error return on an
empty vector; otherwise yields the last element and the updated vector. -/
def pop_back_vector (v : vector_t) : Option (ℚ × vector_t) :=
  match v.data.getLast? with
  | none => none
  | some dat => some (dat, { v with data := v.data.dropLast })

/-- Function `pop_front_vector`: `none` models the `FLT_MIN` error return on an
empty vector; otherwise yields the first element, shifting the rest left. -/
def pop_front_vector (v : vector_t) : Option (ℚ × vector_t) :=
  match v.data with
  | [] => none
  | dat :: rest => some (dat, { v with data := rest })

/-- Function `get_vector`: `none` models the `FLT_MAX` error return for an index
past `len`. -/
def get_vector (v : vector_t) (index : ℕ) : Option ℚ :=
  if index ≥ v.data.length then none else some (v.data.getD index 0)

/-- Function `copy_vector`: a fresh vector of the source's capacity, then each live
element re-pushed in order with `push_back_vector`. -/
def copy_vector (v : vector_t) : vector_t :=
  v.data.foldl push_back_vector (init_vector v.alloc)

-- ================================================================
-- STRING_T (TextBuffer)

/-- Struct `string_t`: owned byte content (`len = str.length`, modelled
NUL-terminator excluded) plus allocation size `alloc` (terminator
included; invariant of reachable states: `alloc ≥ len + 1`). -/
structure string_t where
  str : String
  alloc : ℕ
  deriving Repr, DecidableEq

/-- Function `init_string`: copies the input, `len = strlen(str)`,
`alloc = len + 1`. -/
def init_string (s : String) : string_t :=
  { str := s, alloc := s.length + 1 }

/-- Function `get_string`: the owned content. -/
def get_string (s : string_t) : String := s.str

/-- Function `string_size`: returns `len`. -/
def string_size (s : string_t) : ℕ := s.str.length

/-- Function `string_alloc`: returns `alloc`. -/
def string_alloc (s : string_t) : ℕ := s.alloc

/-- Function `reserve_string`: fails (`none`, buffer untouched) when
`len <= alloc`; otherwise reallocates and sets `alloc = len`. -/
def reserve_string (s : string_t) (len : ℕ) : Option string_t :=
  if len ≤ s.alloc then none else some { s with alloc := len }

/-- Function `copy_string`: `init_string` of the content, then `reserve_string` up
to the source's allocation when the fresh allocation is smaller (the C
code ignores `reserve_string`'s return value, hence `getD`). -/
def copy_string (s : string_t) : string_t :=
  let new_str := init_string (get_string s)
  if new_str.alloc < s.alloc then (reserve_string new_str s.alloc).getD new_str
  else new_str

-- ================================================================
-- DICT_T (ChainedMap)

/-- Function `hash_function`: djb2 (`hash = hash * 33 + c`, seed 5381) over the
bytes of the key, with the `size_t` wrap applied at each step. -/
def hash_function (key : String) : ℕ :=
  key.data.foldl (fun h c => (h * 33 + c.toNat) % 2 ^ 64) 5381

/-- Constant `hashSize` from dstructures.c: initial bucket count of `init_dict`. -/
def hashSize : ℕ := 3

/-- Constant `LOAD_FACTOR_THRESHOLD` (the C `float` constant `0.7`, modelled as the
exact rational). -/
def LOAD_FACTOR_THRESHOLD : ℚ := 7 / 10

/-- Struct `dict_t`: the buckets (each the chain hanging off one head
node, in list order = chain order), the cumulative insert counter
`hash_size` and the counter `len`.  The bucket count `alloc` is
`keyValues.length`. -/
structure dict_t where
  keyValues : List (List (String × ℚ))
  hash_size : ℕ
  len : ℕ
  deriving Repr, DecidableEq

/-- Function `dict_size`: returns `len`. -/
def dict_size (d : dict_t) : ℕ := d.len

/-- Function `dict_alloc`: returns the bucket count. -/
def dict_alloc (d : dict_t) : ℕ := d.keyValues.length

/-- Function `dict_hash_size`: returns `hash_size`. -/
def dict_hash_size (d : dict_t) : ℕ := d.hash_size

/-- Function `init_dict`: `hashSize` empty buckets, both counters zero. -/
def init_dict : dict_t :=
  { keyValues := List.replicate hashSize [], hash_size := 0, len := 0 }

/-- One step of the rehash loop in `resize_dict`: prepend the node to the
bucket of its recomputed index in the new table. -/
def rehash_node (tbl : List (List (String × ℚ))) (node : String × ℚ) :
    List (List (String × ℚ)) :=
  let idx := hash_function node.1 % tbl.length
  tbl.set idx (node :: tbl.getD idx [])

/-- Function `resize_dict`: a fresh table of `new_size` empty buckets; every node of
every old chain (old buckets in index order, each chain head to tail) is
prepended to its new bucket.  `hash_size` and `len` are untouched. -/
def resize_dict (d : dict_t) (new_size : ℕ) : dict_t :=
  { keyValues := d.keyValues.flatten.foldl rehash_node (List.replicate new_size []),
    hash_size := d.hash_size, len := d.len }

/-- Function `insert_dict`: resize first when `hash_size >= alloc * 0.7`; then fail
(`false`, map otherwise untouched) if the key is already in its bucket's
chain; otherwise prepend the new node, increment `hash_size`, and
increment `len` (the C guard `keyValues[index].next == new_node` compares
the pointer just stored and is always true). -/
def insert_dict (d : dict_t) (key : String) (value : ℚ) : Bool × dict_t :=
  let d :=
    if (d.hash_size : ℚ) ≥ (d.keyValues.length : ℚ) * LOAD_FACTOR_THRESHOLD then
      resize_dict d
        (if d.keyValues.length < XSEC_THRESHOLD then d.keyValues.length * 2
         else d.keyValues.length + XSEC_FIXED_AMOUNT)
    else d
  let index := hash_function key % d.keyValues.length
  let bucket := d.keyValues.getD index []
  if bucket.any (fun p => p.1 = key) then (false, d)
  else
    (true,
     { keyValues := d.keyValues.set index ((key, value) :: bucket),
       hash_size := d.hash_size + 1,
       len := d.len + 1 })

/-- The unlink loop of `pop_dict` over one chain: remove the first node
whose key matches, returning its value and the shortened chain. -/
def pop_chain : List (String × ℚ) → String → Option (ℚ × List (String × ℚ))
  | [], _ => none
  | p :: rest, key =>
    if p.1 = key then some (p.2, rest)
    else
      match pop_chain rest key with
      | none => none
      | some (v, rest') => some (v, p :: rest')

/-- Function `pop_dict`: `none` models the `FLT_MAX` not-found return; on success
the node is unlinked and `len` is decremented (`hash_size` is not). -/
def pop_dict (d : dict_t) (key : String) : Option (ℚ × dict_t) :=
  let index := hash_function key % d.keyValues.length
  match pop_chain (d.keyValues.getD index []) key with
  | none => none
  | some (v, chain) =>
    some (v, { d with keyValues := d.keyValues.set index chain, len := d.len - 1 })

/-- Function `get_dict_value`: scan the key's bucket; `none` models the `FLT_MAX`
not-found return. -/
def get_dict_value (d : dict_t) (key : String) : Option ℚ :=
  let index := hash_function key % d.keyValues.length
  ((d.keyValues.getD index []).find? (fun p => p.1 = key)).map Prod.snd

/-- All live key/value pairs of the map, bucket by bucket. -/
def dict_pairs (d : dict_t) : List (String × ℚ) := d.keyValues.flatten

/-- The number of live key/value pairs. -/
def live_pairs (d : dict_t) : ℕ := (dict_pairs d).length

/-- The number of buckets whose chain is non-empty. -/
def nonempty_buckets (d : dict_t) : ℕ :=
  (d.keyValues.filter (fun b => ¬ b.isEmpty)).length

/-- A dictionary operation: an insert or a remove. -/
inductive DOp where
  | ins (key : String) (value : ℚ)
  | rem (key : String)

/-- Apply one operation (the state part of `insert_dict` / `pop_dict`). -/
def dop_step (d : dict_t) : DOp → dict_t
  | .ins k v => (insert_dict d k v).2
  | .rem k => match pop_dict d k with
    | none => d
    | some (_, d') => d'

/-- Run a sequence of operations. -/
def run_ops (d : dict_t) (ops : List DOp) : dict_t := ops.foldl dop_step d

/-- Count the successful inserts in a run of `ops` from `d`. -/
def succ_inserts (d : dict_t) (ops : List DOp) : ℕ :=
  match ops with
  | [] => 0
  | op :: rest =>
    (match op with
     | .ins k v => if (insert_dict d k v).1 then 1 else 0
     | .rem _ => 0) + succ_inserts (dop_step d op) rest

-- ================================================================
-- Concrete states used by witnesses and counterexamples

/-- The five-sample table `{(10,1),(20,2),(30,3),(40,4),(50,5)}` of the
spec's interpolation example, built by pushes. -/
def sample_table : xsec_t :=
  push_xsec (push_xsec (push_xsec (push_xsec (push_xsec (init_xsec 5) 10 1) 20 2) 30 3) 40 4) 50 5

/-- Three inserts into a fresh map: load factor 3/3 exceeds 0.7, so the
next insert (even of a duplicate) resizes first. -/
def dict_abc : dict_t :=
  (insert_dict (insert_dict (insert_dict init_dict "a" 1).2 "b" 2).2 "c" 3).2

/-- One insert into a fresh map. -/
def dict_one : dict_t := (insert_dict init_dict "One" 1).2

/-- State `dict_one` after removing its only key: the remove succeeds, but
`hash_size` stays 1. -/
def dict_one_popped : dict_t := dop_step dict_one (.rem "One")

/-- Inserts of `"One"` and `"Three"`, whose hashes collide modulo the
initial bucket count 3: two live pairs, one non-empty bucket. -/
def dict_one_three : dict_t :=
  (insert_dict (insert_dict init_dict "One" 1).2 "Three" 3).2

/-- The reachable-state invariant of `dict_t`: a positive bucket count
(`init_dict` starts at 3 and resizes only grow it), every node sitting in
the bucket of its key's hash, and no duplicate keys. -/
def dict_wf (d : dict_t) : Prop :=
  0 < d.keyValues.length ∧
  (∀ i, i < d.keyValues.length → ∀ p ∈ d.keyValues.getD i [],
    hash_function p.1 % d.keyValues.length = i) ∧
  ((dict_pairs d).map Prod.fst).Nodup

-- ================================================================
-- Helper lemmas: growth and pushes

theorem grow_alloc_ge (a : ℕ) : a + 1 ≤ grow_alloc a := by
  unfold grow_alloc XSEC_THRESHOLD XSEC_FIXED_AMOUNT
  dsimp only
  split <;> split <;> omega

theorem push_back_vector_data (v : vector_t) (x : ℚ) :
    (push_back_vector v x).data = v.data ++ [x] := by
  unfold push_back_vector
  split <;> rfl

theorem push_back_vector_alloc (v : vector_t) (x : ℚ) :
    (push_back_vector v x).alloc =
      if v.alloc ≤ v.data.length then grow_alloc v.alloc else v.alloc := by
  unfold push_back_vector
  split <;> simp_all

theorem push_back_vector_inv (v : vector_t) (x : ℚ) (h : v.data.length ≤ v.alloc) :
    (push_back_vector v x).data.length ≤ (push_back_vector v x).alloc := by
  rw [push_back_vector_data, push_back_vector_alloc]
  simp only [List.length_append, List.length_singleton]
  split
  · have := grow_alloc_ge v.alloc
    omega
  · omega

theorem foldl_push_back (xs : List ℚ) : ∀ v : vector_t, v.data.length ≤ v.alloc →
    (xs.foldl push_back_vector v).data = v.data ++ xs ∧
    (xs.foldl push_back_vector v).data.length ≤ (xs.foldl push_back_vector v).alloc := by
  induction xs with
  | nil => intro v h; simpa using h
  | cons x xs ih =>
    intro v h
    have step := ih (push_back_vector v x) (push_back_vector_inv v x h)
    rw [List.foldl_cons]
    refine ⟨?_, step.2⟩
    rw [step.1, push_back_vector_data, List.append_assoc, List.singleton_append]

theorem foldl_push_back_no_grow (xs : List ℚ) :
    ∀ v : vector_t, v.data.length + xs.length ≤ v.alloc →
    (xs.foldl push_back_vector v).data = v.data ++ xs ∧
    (xs.foldl push_back_vector v).alloc = v.alloc := by
  induction xs with
  | nil => intro v h; simp
  | cons x xs ih =>
    intro v h
    have hlt : ¬ v.alloc ≤ v.data.length := by simp at h; omega
    have hdat := push_back_vector_data v x
    have hal : (push_back_vector v x).alloc = v.alloc := by
      rw [push_back_vector_alloc, if_neg hlt]
    have step := ih (push_back_vector v x) (by rw [hdat, hal]; simp at h ⊢; omega)
    rw [List.foldl_cons]
    refine ⟨?_, by rw [step.2, hal]⟩
    rw [step.1, hdat, List.append_assoc, List.singleton_append]

theorem push_xsec_xs (t : xsec_t) (x e : ℚ) :
    (push_xsec t x e).xs = t.xs ++ [x] := by
  unfold push_xsec
  split <;> rfl

theorem push_xsec_alloc (t : xsec_t) (x e : ℚ) :
    (push_xsec t x e).alloc =
      if t.alloc ≤ t.xs.length then grow_alloc t.alloc else t.alloc := by
  unfold push_xsec
  split <;> simp_all

theorem push_xsec_inv (t : xsec_t) (x e : ℚ) (h : t.xs.length ≤ t.alloc) :
    (push_xsec t x e).xs.length ≤ (push_xsec t x e).alloc := by
  rw [push_xsec_xs, push_xsec_alloc]
  simp only [List.length_append, List.length_singleton]
  split
  · have := grow_alloc_ge t.alloc
    omega
  · omega

theorem foldl_push_xsec (ps : List (ℚ × ℚ)) :
    ∀ t : xsec_t, t.xs.length ≤ t.alloc →
    ((ps.foldl (fun t p => push_xsec t p.1 p.2) t).xs =
      t.xs ++ ps.map Prod.fst) ∧
    (ps.foldl (fun t p => push_xsec t p.1 p.2) t).xs.length ≤
      (ps.foldl (fun t p => push_xsec t p.1 p.2) t).alloc := by
  induction ps with
  | nil => intro t h; simpa using h
  | cons p ps ih =>
    intro t h
    have step := ih (push_xsec t p.1 p.2) (push_xsec_inv t p.1 p.2 h)
    rw [List.foldl_cons]
    refine ⟨?_, step.2⟩
    rw [step.1, push_xsec_xs, List.append_assoc, List.singleton_append, List.map_cons]

-- ================================================================
-- C2: growth law

/-- Claim C2, counterexample: The claim's growth law ("the new capacity is
double the current capacity while the current capacity is below the
threshold") fails at capacity 0: the 1st push into a vector created with
capacity 0 yields capacity 2, not `2 * 0 = 0`. -/
theorem counterexample_C2_growth :
    ¬ vector_alloc (push_back_vector (init_vector 0) 1) =
        2 * vector_alloc (init_vector 0) := by
  with_unfolding_all decide

/-- Claim C2, amended: For every sequence of `k` pushes into a SampleTable
or DynamicArray created with initial capacity `c < k`, afterwards
`size() = k` and `capacity() ≥ k`; and each growth step, taken when a push
finds `length = capacity`, replaces a zero capacity by 1 before the test
and then doubles below the 1 MiB-element threshold, otherwise adds the
fixed 1 MiB-element increment (so capacity 0 grows to 2, and capacity 4
has become 8 after the 5th push). -/
theorem claim_C2_growth :
    (∀ (xs : List ℚ) (c : ℕ), c < xs.length →
      vector_size (xs.foldl push_back_vector (init_vector c)) = xs.length ∧
      xs.length ≤ vector_alloc (xs.foldl push_back_vector (init_vector c))) ∧
    (∀ (ps : List (ℚ × ℚ)) (c : ℕ), c < ps.length →
      xsec_size (ps.foldl (fun t p => push_xsec t p.1 p.2) (init_xsec c)) = ps.length ∧
      ps.length ≤ xsec_alloc (ps.foldl (fun t p => push_xsec t p.1 p.2) (init_xsec c))) ∧
    (∀ (v : vector_t) (x : ℚ), vector_size v = vector_alloc v →
      vector_alloc (push_back_vector v x) =
        if vector_alloc v = 0 then 2
        else if vector_alloc v < 1024 * 1024 then 2 * vector_alloc v
        else vector_alloc v + 1024 * 1024) ∧
    (∀ (t : xsec_t) (x e : ℚ), xsec_size t = xsec_alloc t →
      xsec_alloc (push_xsec t x e) =
        if xsec_alloc t = 0 then 2
        else if xsec_alloc t < 1024 * 1024 then 2 * xsec_alloc t
        else xsec_alloc t + 1024 * 1024) := by
  refine ⟨?_, ?_, ?_, ?_⟩
  · intro xs c _
    have h := foldl_push_back xs (init_vector c) (by simp [init_vector])
    constructor
    · show (xs.foldl push_back_vector (init_vector c)).data.length = xs.length
      rw [h.1]
      simp [init_vector]
    · have := h.2
      rw [h.1] at this
      simpa [init_vector] using this
  · intro ps c _
    have h := foldl_push_xsec ps (init_xsec c) (by simp [init_xsec])
    constructor
    · show (ps.foldl (fun t p => push_xsec t p.1 p.2) (init_xsec c)).xs.length = ps.length
      rw [h.1]
      simp [init_xsec]
    · have := h.2
      rw [h.1] at this
      simpa [init_xsec] using this
  · intro v x h
    rw [show vector_alloc (push_back_vector v x) = (push_back_vector v x).alloc from rfl,
      push_back_vector_alloc]
    rw [if_pos (by unfold vector_size vector_alloc at h; omega)]
    unfold vector_alloc
    unfold grow_alloc XSEC_THRESHOLD XSEC_FIXED_AMOUNT
    dsimp only
    split_ifs <;> omega
  · intro t x e h
    rw [show xsec_alloc (push_xsec t x e) = (push_xsec t x e).alloc from rfl,
      push_xsec_alloc]
    rw [if_pos (by unfold xsec_size xsec_alloc at h; omega)]
    unfold xsec_alloc
    unfold grow_alloc XSEC_THRESHOLD XSEC_FIXED_AMOUNT
    dsimp only
    split_ifs <;> omega

/-- Claim C2, witness: The spec's own example: five pushes into a vector of
capacity 4 leave size 5 and capacity 8 (≥ 5). -/
theorem claim_C2_growth_witness :
    vector_size (([1, 2, 3, 4, 5] : List ℚ).foldl push_back_vector (init_vector 4)) = 5 ∧
    5 ≤ vector_alloc (([1, 2, 3, 4, 5] : List ℚ).foldl push_back_vector (init_vector 4)) ∧
    vector_alloc (([1, 2, 3, 4, 5] : List ℚ).foldl push_back_vector (init_vector 4)) = 8 := by
  have h := claim_C2_growth.1 [1, 2, 3, 4, 5] 4 (by simp)
  exact ⟨by simpa using h.1, by simpa using h.2, by with_unfolding_all decide⟩

-- ================================================================
-- C6: push/pop round trips

/-- Claim C6: `popBack` after `pushBack x` returns `x` and restores the
prior length and element sequence; `popFront` after `pushFront x`
likewise. -/
theorem claim_C6_roundtrip :
    ∀ (v : vector_t) (x : ℚ),
      (∃ v', pop_back_vector (push_back_vector v x) = some (x, v') ∧
        v'.data = v.data ∧ vector_size v' = vector_size v) ∧
      (∃ v', pop_front_vector (push_front_vector v x) = some (x, v') ∧
        v'.data = v.data ∧ vector_size v' = vector_size v) := by
  intro v x
  constructor
  · refine ⟨{ push_back_vector v x with data := v.data }, ?_, rfl, rfl⟩
    unfold pop_back_vector
    rw [push_back_vector_data]
    rw [List.getLast?_concat]
    rw [List.dropLast_concat]
  · have hdat : (push_front_vector v x).data = x :: v.data := by
      unfold push_front_vector
      split <;> rfl
    refine ⟨{ push_front_vector v x with data := v.data }, ?_, rfl, rfl⟩
    unfold pop_front_vector
    rw [hdat]

-- ================================================================
-- C9: reserve on the text buffer

/-- Claim C9: `reserve(n)` fails and leaves the buffer untouched when
`n ≤ capacity` (`none` models the `false` return with no mutation), and
otherwise succeeds with capacity exactly `n`, the content and length
unchanged. -/
theorem claim_C9_reserve :
    ∀ (s : string_t) (n : ℕ),
      (n ≤ string_alloc s → reserve_string s n = none) ∧
      (string_alloc s < n →
        ∃ r, reserve_string s n = some r ∧ get_string r = get_string s ∧
          string_size r = string_size s ∧ string_alloc r = n) := by
  intro s n
  constructor
  · intro h
    unfold string_alloc at h
    unfold reserve_string
    rw [if_pos h]
  · intro h
    refine ⟨{ s with alloc := n }, ?_, rfl, rfl, rfl⟩
    unfold reserve_string
    rw [if_neg (by unfold string_alloc at h; omega)]

/-- Claim C9, witness: On the buffer `"Hello"` (length 5, capacity 6):
reserving 6 fails, reserving 20 succeeds with capacity 20 and content
intact. -/
theorem claim_C9_reserve_witness :
    (6 ≤ string_alloc (init_string "Hello") ∧
      reserve_string (init_string "Hello") 6 = none) ∧
    (string_alloc (init_string "Hello") < 20 ∧
      ∃ r, reserve_string (init_string "Hello") 20 = some r ∧
        get_string r = get_string (init_string "Hello") ∧
        string_size r = string_size (init_string "Hello") ∧
        string_alloc r = 20) := by
  constructor
  · exact ⟨by with_unfolding_all decide,
      (claim_C9_reserve (init_string "Hello") 6).1 (by with_unfolding_all decide)⟩
  · exact ⟨by with_unfolding_all decide,
      (claim_C9_reserve (init_string "Hello") 20).2 (by with_unfolding_all decide)⟩

-- ================================================================
-- C8: deep copies

/-- Claim C8: `copy` yields a container with the same element sequence
(content) and the same capacity as the source; because the copy is
re-pushed element by element into freshly allocated storage (in this
value-level model the structures are distinct values), no storage is
shared with the original.  Hypotheses are the reachable-state invariants
`length ≤ capacity` (vector) and `capacity ≥ length + 1` (text buffer). -/
theorem claim_C8_copy :
    (∀ v : vector_t, vector_size v ≤ vector_alloc v →
      (copy_vector v).data = v.data ∧
      vector_alloc (copy_vector v) = vector_alloc v) ∧
    (∀ s : string_t, string_size s + 1 ≤ string_alloc s →
      get_string (copy_string s) = get_string s ∧
      string_alloc (copy_string s) = string_alloc s) := by
  constructor
  · intro v h
    have hfold := foldl_push_back_no_grow v.data (init_vector v.alloc)
      (by simpa [init_vector] using h)
    unfold copy_vector
    constructor
    · rw [hfold.1]
      simp [init_vector]
    · show (v.data.foldl push_back_vector (init_vector v.alloc)).alloc = v.alloc
      rw [hfold.2]
      rfl
  · intro s h
    unfold copy_string
    by_cases hc : (init_string (get_string s)).alloc < s.alloc
    · rw [if_pos hc]
      unfold reserve_string
      rw [if_neg (by omega)]
      exact ⟨rfl, rfl⟩
    · rw [if_neg hc]
      unfold string_alloc
      unfold init_string get_string at hc ⊢
      unfold string_size string_alloc at h
      exact ⟨rfl, by dsimp only at hc ⊢; omega⟩

/-- Claim C8, witness: Copying the vector `[7, 8]` of capacity 5 and the
buffer `"Hi"` of capacity 9 preserves content and capacity. -/
theorem claim_C8_copy_witness :
    (vector_size { data := [7, 8], alloc := 5 } ≤
        vector_alloc { data := [7, 8], alloc := 5 } ∧
      (copy_vector { data := [7, 8], alloc := 5 }).data = [7, 8] ∧
      vector_alloc (copy_vector { data := [7, 8], alloc := 5 }) = 5) ∧
    (string_size { str := "Hi", alloc := 9 } + 1 ≤
        string_alloc { str := "Hi", alloc := 9 } ∧
      get_string (copy_string { str := "Hi", alloc := 9 }) = "Hi" ∧
      string_alloc (copy_string { str := "Hi", alloc := 9 }) = 9) := by
  constructor
  · exact ⟨by with_unfolding_all decide,
      (claim_C8_copy.1 { data := [7, 8], alloc := 5 } (by with_unfolding_all decide)).1,
      (claim_C8_copy.1 { data := [7, 8], alloc := 5 } (by with_unfolding_all decide)).2⟩
  · exact ⟨by with_unfolding_all decide,
      (claim_C8_copy.2 { str := "Hi", alloc := 9 } (by with_unfolding_all decide)).1,
      (claim_C8_copy.2 { str := "Hi", alloc := 9 } (by with_unfolding_all decide)).2⟩

-- ================================================================
-- C7: insertAt

theorem insert_vector_data (v : vector_t) (x : ℚ) (i : ℕ) (h : i ≤ v.data.length) :
    ∃ v', insert_vector v x i = some v' ∧
      v'.data = v.data.take i ++ x :: v.data.drop i := by
  unfold insert_vector
  rw [if_neg (by omega)]
  by_cases h0 : i = 0
  · subst h0
    rw [if_pos rfl]
    refine ⟨_, rfl, ?_⟩
    have : (push_front_vector v x).data = x :: v.data := by
      unfold push_front_vector
      split <;> rfl
    simpa using this
  · rw [if_neg h0]
    by_cases hn : i = v.data.length
    · rw [if_pos hn]
      refine ⟨_, rfl, ?_⟩
      rw [push_back_vector_data, hn, List.take_length, List.drop_length]
    · rw [if_neg hn]
      refine ⟨_, rfl, ?_⟩
      split <;> rfl

/-- Claim C7: `insertAt(x, i)` with `i ≤ length` succeeds: the new length is
`length + 1`, `get(i) = x`, elements before `i` are unchanged and elements
formerly at positions `≥ i` sit one position to the right; with
`i > length` it fails with `IndexOutOfRange` (`none`, vector unchanged). -/
theorem claim_C7_insertAt :
    ∀ (v : vector_t) (x : ℚ) (i : ℕ),
      (i ≤ vector_size v →
        ∃ v', insert_vector v x i = some v' ∧
          vector_size v' = vector_size v + 1 ∧
          get_vector v' i = some x ∧
          (∀ j, j < i → get_vector v' j = get_vector v j) ∧
          (∀ j, i ≤ j → j < vector_size v → get_vector v' (j + 1) = get_vector v j)) ∧
      (vector_size v < i → insert_vector v x i = none) := by
  intro v x i
  constructor
  · intro h
    unfold vector_size at h
    obtain ⟨v', hins, hdat⟩ := insert_vector_data v x i h
    have htake : (v.data.take i).length = i := List.length_take_of_le h
    have hlen : v'.data.length = v.data.length + 1 := by
      rw [hdat]
      simp only [List.length_append, List.length_cons, List.length_drop, htake]
      omega
    refine ⟨v', hins, ?_, ?_, ?_, ?_⟩
    · unfold vector_size
      omega
    · unfold get_vector
      rw [if_neg (by omega)]
      congr 1
      rw [hdat, List.getD_eq_getElem?_getD,
        List.getElem?_append_right (by rw [htake])]
      rw [htake, Nat.sub_self]
      simp
    · intro j hj
      unfold get_vector
      rw [if_neg (by omega), if_neg (by omega)]
      congr 1
      rw [hdat, List.getD_eq_getElem?_getD,
        List.getElem?_append_left (by rw [htake]; omega),
        List.getElem?_take_of_lt hj, List.getD_eq_getElem?_getD]
    · intro j hij hjn
      unfold vector_size at hjn
      unfold get_vector
      rw [if_neg (by omega), if_neg (by omega)]
      congr 1
      rw [hdat, List.getD_eq_getElem?_getD,
        List.getElem?_append_right (by rw [htake]; omega), htake]
      have : j + 1 - i = (j - i) + 1 := by omega
      rw [this, List.getElem?_cons_succ, List.getElem?_drop]
      rw [show i + (j - i) = j by omega, List.getD_eq_getElem?_getD]
  · intro h
    unfold vector_size at h
    unfold insert_vector
    rw [if_pos (by omega)]

/-- Claim C7, witness: Inserting 9 at index 1 of `[1, 2]` (capacity 2)
gives `[1, 9, 2]`: length 3, `get(1) = 9`, `get(0)` unchanged, the old
element at 1 now at 2; inserting at index 5 fails. -/
theorem claim_C7_insertAt_witness :
    (1 ≤ vector_size { data := [1, 2], alloc := 2 } ∧
      ∃ v', insert_vector { data := [1, 2], alloc := 2 } 9 1 = some v' ∧
        vector_size v' = vector_size { data := [1, 2], alloc := 2 } + 1 ∧
        get_vector v' 1 = some 9 ∧
        (∀ j, j < 1 → get_vector v' j = get_vector { data := [1, 2], alloc := 2 } j) ∧
        (∀ j, 1 ≤ j → j < vector_size { data := [1, 2], alloc := 2 } →
          get_vector v' (j + 1) = get_vector { data := [1, 2], alloc := 2 } j)) ∧
    (vector_size { data := [1, 2], alloc := 2 } < 5 →
      insert_vector { data := [1, 2], alloc := 2 } 9 5 = none) := by
  refine ⟨⟨by with_unfolding_all decide, ?_⟩, (claim_C7_insertAt { data := [1, 2], alloc := 2 } 9 5).2⟩
  exact (claim_C7_insertAt { data := [1, 2], alloc := 2 } 9 1).1 (by with_unfolding_all decide)

-- ================================================================
-- Dictionary helper lemmas

theorem getD_set_eq {α : Type} (l : List α) (i : ℕ) (a d : α) (h : i < l.length) :
    (l.set i a).getD i d = a := by
  rw [List.getD_eq_getElem?_getD, List.getElem?_set_self h]
  rfl

theorem getD_set_ne {α : Type} (l : List α) {i j : ℕ} (a d : α) (h : i ≠ j) :
    (l.set i a).getD j d = l.getD j d := by
  rw [List.getD_eq_getElem?_getD, List.getElem?_set_ne h, ← List.getD_eq_getElem?_getD]

theorem getD_replicate_nil {α : Type} (n i : ℕ) :
    (List.replicate n ([] : List α)).getD i [] = [] := by
  rw [List.getD_eq_getElem?_getD, List.getElem?_replicate]
  split <;> rfl

theorem flatten_set_length {α : Type} :
    ∀ (tbl : List (List α)) (i : ℕ), i < tbl.length → ∀ b : List α,
    (tbl.set i b).flatten.length + (tbl.getD i []).length =
      tbl.flatten.length + b.length := by
  intro tbl
  induction tbl with
  | nil => intro i hi; simp at hi
  | cons hd tl ih =>
    intro i hi b
    cases i with
    | zero => simp [List.flatten_cons]; omega
    | succ n =>
      have := ih n (by simpa using hi) b
      simp only [List.set_cons_succ, List.flatten_cons, List.length_append,
        List.getD_cons_succ]
      omega

theorem flatten_set_cons_perm {α : Type} :
    ∀ (tbl : List (List α)) (i : ℕ), i < tbl.length → ∀ a : α,
    (tbl.set i (a :: tbl.getD i [])).flatten.Perm (a :: tbl.flatten) := by
  intro tbl
  induction tbl with
  | nil => intro i hi; simp at hi
  | cons hd tl ih =>
    intro i hi a
    cases i with
    | zero => simp
    | succ n =>
      have h1 := ih n (by simpa using hi) a
      simp only [List.set_cons_succ, List.flatten_cons, List.getD_cons_succ]
      exact (List.Perm.append_left hd h1).trans List.perm_middle

theorem insert_dict_eq (d : dict_t) (k : String) (v : ℚ) :
    insert_dict d k v =
      (fun D : dict_t =>
        if (D.keyValues.getD (hash_function k % D.keyValues.length) []).any
            (fun p => p.1 = k)
        then (false, D)
        else (true,
          { keyValues := D.keyValues.set (hash_function k % D.keyValues.length)
              ((k, v) :: D.keyValues.getD (hash_function k % D.keyValues.length) []),
            hash_size := D.hash_size + 1, len := D.len + 1 }))
      (if (d.hash_size : ℚ) ≥ (d.keyValues.length : ℚ) * LOAD_FACTOR_THRESHOLD
       then resize_dict d
              (if d.keyValues.length < XSEC_THRESHOLD then d.keyValues.length * 2
               else d.keyValues.length + XSEC_FIXED_AMOUNT)
       else d) := rfl

theorem pop_dict_eq (d : dict_t) (k : String) :
    pop_dict d k =
      match pop_chain (d.keyValues.getD (hash_function k % d.keyValues.length) []) k with
      | none => none
      | some (v, chain) =>
        some (v,
          { d with
            keyValues := d.keyValues.set (hash_function k % d.keyValues.length) chain,
            len := d.len - 1 }) := rfl

theorem pop_chain_some_length {k : String} :
    ∀ {l : List (String × ℚ)} {v : ℚ} {l' : List (String × ℚ)},
      pop_chain l k = some (v, l') → l.length = l'.length + 1 := by
  intro l
  induction l with
  | nil => intro v l' h; simp [pop_chain] at h
  | cons p rest ih =>
    intro v l' h
    unfold pop_chain at h
    split at h
    · injection h with h1
      injection h1 with h1 h2
      subst h2
      simp
    · cases hrec : pop_chain rest k with
      | none => rw [hrec] at h; simp at h
      | some q =>
        rw [hrec] at h
        obtain ⟨qv, qrest⟩ := q
        simp only at h
        injection h with h1
        injection h1 with h1 h2
        subst h2
        have := ih hrec
        simp [this]

theorem rehash_fold (n : ℕ) (hn : 0 < n) :
    ∀ (nodes : List (String × ℚ)) (tbl : List (List (String × ℚ))),
      tbl.length = n →
      (∀ i p, p ∈ tbl.getD i [] → hash_function p.1 % n = i) →
      (nodes.foldl rehash_node tbl).length = n ∧
      (∀ i p, p ∈ (nodes.foldl rehash_node tbl).getD i [] →
        hash_function p.1 % n = i) ∧
      (nodes.foldl rehash_node tbl).flatten.Perm (tbl.flatten ++ nodes) := by
  intro nodes
  induction nodes with
  | nil =>
    intro tbl hlen hplace
    exact ⟨hlen, hplace, by simp⟩
  | cons nd nodes ih =>
    intro tbl hlen hplace
    have htpos : 0 < tbl.length := hlen ▸ hn
    have hidxlt : hash_function nd.1 % tbl.length < tbl.length := Nat.mod_lt _ htpos
    have hstep_len : (rehash_node tbl nd).length = n := by
      unfold rehash_node
      rw [List.length_set, hlen]
    have hstep_place : ∀ i p, p ∈ (rehash_node tbl nd).getD i [] →
        hash_function p.1 % n = i := by
      intro i p hp
      unfold rehash_node at hp
      by_cases hie : hash_function nd.1 % tbl.length = i
      · rw [← hie] at hp ⊢
        rw [getD_set_eq _ _ _ _ hidxlt] at hp
        rcases List.mem_cons.mp hp with rfl | hp
        · rw [hlen]
        · exact hplace _ _ hp
      · rw [getD_set_ne _ _ _ hie] at hp
        exact hplace _ _ hp
    have hstep_perm : (rehash_node tbl nd).flatten.Perm (nd :: tbl.flatten) := by
      unfold rehash_node
      exact flatten_set_cons_perm tbl _ hidxlt nd
    obtain ⟨h1, h2, h3⟩ := ih (rehash_node tbl nd) hstep_len hstep_place
    refine ⟨h1, h2, h3.trans ?_⟩
    exact (hstep_perm.append_right nodes).trans List.perm_middle.symm

theorem resize_dict_spec (d : dict_t) (sz : ℕ) (hsz : 0 < sz) :
    (resize_dict d sz).keyValues.length = sz ∧
    (∀ i p, p ∈ (resize_dict d sz).keyValues.getD i [] →
      hash_function p.1 % sz = i) ∧
    (resize_dict d sz).keyValues.flatten.Perm d.keyValues.flatten := by
  unfold resize_dict
  obtain ⟨h1, h2, h3⟩ := rehash_fold sz hsz d.keyValues.flatten
    (List.replicate sz []) (List.length_replicate sz [])
    (by intro i p hp; rw [getD_replicate_nil] at hp; simp at hp)
  exact ⟨h1, h2, by simpa using h3⟩

theorem insert_dict_hash_size_len (d : dict_t) (k : String) (v : ℚ) :
    (insert_dict d k v).2.hash_size =
      (if (insert_dict d k v).1 then d.hash_size + 1 else d.hash_size) ∧
    (insert_dict d k v).2.len =
      (if (insert_dict d k v).1 then d.len + 1 else d.len) := by
  rw [insert_dict_eq]
  set D := (if (d.hash_size : ℚ) ≥ (d.keyValues.length : ℚ) * LOAD_FACTOR_THRESHOLD
    then resize_dict d
      (if d.keyValues.length < XSEC_THRESHOLD then d.keyValues.length * 2
       else d.keyValues.length + XSEC_FIXED_AMOUNT)
    else d) with hDdef
  have hhs : D.hash_size = d.hash_size := by
    rw [hDdef]
    split <;> rfl
  have hlen : D.len = d.len := by
    rw [hDdef]
    split <;> rfl
  dsimp only
  split <;> simp [hhs, hlen]

theorem insert_dict_live (d : dict_t) (k : String) (v : ℚ)
    (ha : 0 < d.keyValues.length) :
    live_pairs (insert_dict d k v).2 =
      (if (insert_dict d k v).1 then live_pairs d + 1 else live_pairs d) ∧
    0 < (insert_dict d k v).2.keyValues.length := by
  rw [insert_dict_eq]
  set sz := (if d.keyValues.length < XSEC_THRESHOLD then d.keyValues.length * 2
    else d.keyValues.length + XSEC_FIXED_AMOUNT) with hszdef
  have hszpos : 0 < sz := by
    rw [hszdef]
    split <;> omega
  set D := (if (d.hash_size : ℚ) ≥ (d.keyValues.length : ℚ) * LOAD_FACTOR_THRESHOLD
    then resize_dict d sz else d) with hDdef
  have hDpos : 0 < D.keyValues.length := by
    rw [hDdef]
    split
    · rw [(resize_dict_spec d sz hszpos).1]
      exact hszpos
    · exact ha
  have hDlive : D.keyValues.flatten.length = d.keyValues.flatten.length := by
    rw [hDdef]
    split
    · exact ((resize_dict_spec d sz hszpos).2.2).length_eq
    · rfl
  have hidxlt : hash_function k % D.keyValues.length < D.keyValues.length :=
    Nat.mod_lt _ hDpos
  dsimp only
  split
  · refine ⟨?_, hDpos⟩
    unfold live_pairs dict_pairs
    simp [hDlive]
  · constructor
    · unfold live_pairs dict_pairs
      dsimp only
      have hfl := flatten_set_length D.keyValues _ hidxlt
        ((k, v) :: D.keyValues.getD (hash_function k % D.keyValues.length) [])
      simp only [List.length_cons] at hfl
      simp only [if_pos]
      omega
    · dsimp only
      rw [List.length_set]
      exact hDpos

theorem pop_dict_counts {d : dict_t} {k : String} {p : ℚ × dict_t}
    (h : pop_dict d k = some p) :
    p.2.hash_size = d.hash_size ∧ p.2.len = d.len - 1 ∧
    live_pairs p.2 + 1 = live_pairs d ∧
    p.2.keyValues.length = d.keyValues.length := by
  rw [pop_dict_eq] at h
  cases hc : pop_chain (d.keyValues.getD (hash_function k % d.keyValues.length) []) k with
  | none =>
    rw [hc] at h
    simp at h
  | some q =>
    obtain ⟨v, chain⟩ := q
    rw [hc] at h
    simp only at h
    injection h with h1
    subst h1
    refine ⟨rfl, rfl, ?_, by simp⟩
    have hbne : d.keyValues.getD (hash_function k % d.keyValues.length) [] ≠ [] := by
      intro he
      rw [he] at hc
      simp [pop_chain] at hc
    have hidxlt : hash_function k % d.keyValues.length < d.keyValues.length := by
      by_contra hge
      push_neg at hge
      refine hbne ?_
      rw [List.getD_eq_getElem?_getD, List.getElem?_eq_none hge]
      rfl
    have hlen := pop_chain_some_length hc
    have hfl := flatten_set_length d.keyValues _ hidxlt chain
    unfold live_pairs dict_pairs
    dsimp only
    omega

theorem run_ops_hash_size : ∀ (ops : List DOp) (d : dict_t),
    (run_ops d ops).hash_size = d.hash_size + succ_inserts d ops := by
  intro ops
  induction ops with
  | nil => intro d; simp [run_ops, succ_inserts]
  | cons op ops ih =>
    intro d
    cases op with
    | ins k v =>
      have hrun : run_ops d (DOp.ins k v :: ops) =
          run_ops (insert_dict d k v).2 ops := rfl
      have hsucc : succ_inserts d (DOp.ins k v :: ops) =
          (if (insert_dict d k v).1 then 1 else 0) +
            succ_inserts (insert_dict d k v).2 ops := rfl
      rw [hrun, ih, hsucc]
      have hh := (insert_dict_hash_size_len d k v).1
      by_cases hs : (insert_dict d k v).1 = true <;>
        simp [hs] at hh ⊢ <;> omega
    | rem k =>
      have hrun : run_ops d (DOp.rem k :: ops) =
          run_ops (dop_step d (DOp.rem k)) ops := rfl
      have hsucc : succ_inserts d (DOp.rem k :: ops) =
          0 + succ_inserts (dop_step d (DOp.rem k)) ops := rfl
      rw [hrun, ih, hsucc]
      dsimp only [dop_step]
      cases hp : pop_dict d k with
      | none => simp
      | some p =>
        dsimp only
        have h1 := (pop_dict_counts hp).1
        simp [h1]

theorem run_ops_size_invariant : ∀ (ops : List DOp) (d : dict_t),
    0 < d.keyValues.length → d.len = live_pairs d →
    0 < (run_ops d ops).keyValues.length ∧
    (run_ops d ops).len = live_pairs (run_ops d ops) := by
  intro ops
  induction ops with
  | nil => intro d h1 h2; exact ⟨h1, h2⟩
  | cons op ops ih =>
    intro d h1 h2
    have hrun : run_ops d (op :: ops) = run_ops (dop_step d op) ops := rfl
    rw [hrun]
    have hstep : 0 < (dop_step d op).keyValues.length ∧
        (dop_step d op).len = live_pairs (dop_step d op) := by
      cases op with
      | ins k v =>
        dsimp only [dop_step]
        have hl := (insert_dict_live d k v h1).1
        have hpos := (insert_dict_live d k v h1).2
        have hn := (insert_dict_hash_size_len d k v).2
        refine ⟨hpos, ?_⟩
        by_cases hs : (insert_dict d k v).1 = true <;>
          simp [hs] at hl hn <;> omega
      | rem k =>
        dsimp only [dop_step]
        cases hp : pop_dict d k with
        | none => exact ⟨h1, h2⟩
        | some p =>
          dsimp only
          obtain ⟨-, hlen, hlive, hkv⟩ := pop_dict_counts hp
          exact ⟨by rw [hkv]; exact h1, by omega⟩
    exact ih (dop_step d op) hstep.1 hstep.2

-- ================================================================
-- C3, C4, C10: dictionary counters and resize-on-duplicate

/-- Claim C3, counterexample: After the sequence "insert `"One"` (succeeds),
remove `"One"` (succeeds)" the map holds 0 live pairs, yet
`dict_hash_size` still returns 1: `pop_dict` decrements `len`, not
`hash_size`, so the claimed invariant fails on this two-operation run. -/
theorem counterexample_C3_entryCount :
    run_ops init_dict [DOp.ins "One" 1, DOp.rem "One"] = dict_one_popped ∧
    (insert_dict init_dict "One" 1).1 = true ∧
    (pop_dict dict_one "One").isSome = true ∧
    dict_hash_size dict_one_popped = 1 ∧
    live_pairs dict_one_popped = 0 := by
  with_unfolding_all decide

/-- Claim C3, amended: `dict_hash_size` counts the successful inserts, not
the live pairs: each successful insert increases it by one, a failed
insert leaves it unchanged, every successful remove leaves it unchanged,
and after any sequence of inserts and removes on a fresh map it equals
the number of successful inserts in the sequence (the live-pair count is
tracked by `len`/`dict_size` instead, claim C4). -/
theorem claim_C3_entryCount :
    (∀ (d : dict_t) (k : String) (v : ℚ), (insert_dict d k v).1 = true →
      dict_hash_size (insert_dict d k v).2 = dict_hash_size d + 1) ∧
    (∀ (d : dict_t) (k : String) (v : ℚ), (insert_dict d k v).1 = false →
      dict_hash_size (insert_dict d k v).2 = dict_hash_size d) ∧
    (∀ (d : dict_t) (k : String) (p : ℚ × dict_t), pop_dict d k = some p →
      dict_hash_size p.2 = dict_hash_size d) ∧
    (∀ ops : List DOp,
      dict_hash_size (run_ops init_dict ops) = succ_inserts init_dict ops) := by
  refine ⟨?_, ?_, ?_, ?_⟩
  · intro d k v hs
    have hh := (insert_dict_hash_size_len d k v).1
    rw [hs] at hh
    simpa [dict_hash_size] using hh
  · intro d k v hs
    have hh := (insert_dict_hash_size_len d k v).1
    rw [hs] at hh
    simpa [dict_hash_size] using hh
  · intro d k p hp
    exact (pop_dict_counts hp).1
  · intro ops
    have h := run_ops_hash_size ops init_dict
    simpa [dict_hash_size, init_dict] using h

/-- Claim C3, witness: The step facts at concrete states: the
insert of `"One"` into a fresh map succeeds and raises `dict_hash_size`
to 1; removing `"One"` leaves it at 1. -/
theorem claim_C3_entryCount_witness :
    ((insert_dict init_dict "One" 1).1 = true ∧
      dict_hash_size (insert_dict init_dict "One" 1).2 =
        dict_hash_size init_dict + 1) ∧
    (pop_dict dict_one "One" =
        some (1, { keyValues := [[], [], []], hash_size := 1, len := 0 }) ∧
      dict_hash_size (1, ({ keyValues := [[], [], []], hash_size := 1, len := 0 } : dict_t)).2 =
        dict_hash_size dict_one) := by
  constructor
  · exact ⟨by with_unfolding_all decide,
      claim_C3_entryCount.1 init_dict "One" 1 (by with_unfolding_all decide)⟩
  · exact ⟨by with_unfolding_all decide,
      claim_C3_entryCount.2.2.1 dict_one "One"
        (1, { keyValues := [[], [], []], hash_size := 1, len := 0 })
        (by with_unfolding_all decide)⟩

/-- Claim C4, counterexample: `"One"` and `"Three"` hash to the same bucket
modulo the initial bucket count 3: after inserting both, only one bucket
is non-empty, yet `dict_size` returns 2 — the guard
`keyValues[index].next == new_node` in `insert_dict` is always true, so
`len` is incremented on every successful insert, not only on a
previously-empty bucket. -/
theorem counterexample_C4_bucket_count :
    run_ops init_dict [DOp.ins "One" 1, DOp.ins "Three" 3] = dict_one_three ∧
    dict_size dict_one_three = 2 ∧
    nonempty_buckets dict_one_three = 1 := by
  with_unfolding_all decide

/-- Claim C4, amended: The incrementally tracked counter `len` (exposed by
`dict_size`) equals the number of live key/value pairs, not the number of
non-empty buckets: it rises by one on each successful insert, falls by one
on each successful remove, and after any sequence of operations on a fresh
map `dict_size` equals the total number of live pairs in the buckets. -/
theorem claim_C4_dict_size :
    (∀ ops : List DOp,
      dict_size (run_ops init_dict ops) = live_pairs (run_ops init_dict ops)) ∧
    (∀ (d : dict_t) (k : String) (v : ℚ), 0 < dict_alloc d →
      (insert_dict d k v).1 = true →
      dict_size (insert_dict d k v).2 = dict_size d + 1 ∧
      live_pairs (insert_dict d k v).2 = live_pairs d + 1) ∧
    (∀ (d : dict_t) (k : String) (p : ℚ × dict_t), pop_dict d k = some p →
      dict_size p.2 = dict_size d - 1 ∧ live_pairs p.2 + 1 = live_pairs d) := by
  refine ⟨?_, ?_, ?_⟩
  · intro ops
    have h := run_ops_size_invariant ops init_dict
      (by with_unfolding_all decide) (by with_unfolding_all decide)
    exact h.2
  · intro d k v ha hs
    have hl := (insert_dict_live d k v ha).1
    have hn := (insert_dict_hash_size_len d k v).2
    rw [hs] at hl hn
    simp only [if_true] at hl hn
    exact ⟨hn, hl⟩
  · intro d k p hp
    obtain ⟨-, hlen, hlive, -⟩ := pop_dict_counts hp
    exact ⟨hlen, hlive⟩

/-- Claim C4, witness: The insert of `"One"` into the fresh map
(3 buckets, so `0 < alloc`) succeeds and raises both `dict_size` and the
live-pair count from 0 to 1. -/
theorem claim_C4_dict_size_witness :
    0 < dict_alloc init_dict ∧
    (insert_dict init_dict "One" 1).1 = true ∧
    dict_size (insert_dict init_dict "One" 1).2 = dict_size init_dict + 1 ∧
    live_pairs (insert_dict init_dict "One" 1).2 = live_pairs init_dict + 1 := by
  have h := claim_C4_dict_size.2.1 init_dict "One" 1
    (by with_unfolding_all decide) (by with_unfolding_all decide)
  exact ⟨by with_unfolding_all decide, by with_unfolding_all decide, h.1, h.2⟩

/-- Claim C10: A duplicate insert that fails can still have resized the
table: with `"a"`, `"b"`, `"c"` inserted into a fresh map (3 entries ≥
0.7 · 3 buckets), re-inserting the existing key `"a"` performs the
load-factor resize first, growing the bucket array from 3 to 6, and only
then detects the duplicate and returns `false`; the pairs (and the value
of `"a"`) survive the rehash. -/
theorem claim_C10_resize_on_duplicate :
    (insert_dict dict_abc "a" 9).1 = false ∧
    dict_alloc dict_abc = 3 ∧
    dict_alloc (insert_dict dict_abc "a" 9).2 = 6 ∧
    get_dict_value (insert_dict dict_abc "a" 9).2 "a" = some 1 ∧
    live_pairs (insert_dict dict_abc "a" 9).2 = live_pairs dict_abc := by
  with_unfolding_all decide

-- ================================================================
-- C5: duplicate insert does not overwrite

theorem mem_flatten_getD {α : Type} {p : α} {L : List (List α)}
    (h : p ∈ L.flatten) : ∃ i, i < L.length ∧ p ∈ L.getD i [] := by
  obtain ⟨l, hl, hp⟩ := List.mem_flatten.mp h
  obtain ⟨i, hi, hEq⟩ := List.mem_iff_getElem.mp hl
  refine ⟨i, hi, ?_⟩
  rw [List.getD_eq_getElem?_getD, List.getElem?_eq_getElem hi]
  simpa [hEq] using hp

theorem getD_mem_flatten {α : Type} {p : α} {L : List (List α)} {i : ℕ}
    (h : p ∈ L.getD i []) : p ∈ L.flatten := by
  by_cases hi : i < L.length
  · refine List.mem_flatten_of_mem ?_ h
    rw [List.getD_eq_getElem?_getD, List.getElem?_eq_getElem hi]
    exact List.getElem_mem hi
  · rw [List.getD_eq_getElem?_getD, List.getElem?_eq_none (by omega)] at h
    simp at h

/-- Claim C5: Inserting an already-present key `k ↦ v` fails (`false`),
leaves the set of live pairs unchanged (up to the bucket redistribution a
preceding load-factor resize may apply, claim C10), and `get(k)` still
returns the original `v`. -/
theorem claim_C5_duplicate_insert :
    ∀ (d : dict_t) (k : String) (v v' : ℚ),
      dict_wf d → (k, v) ∈ dict_pairs d →
      (insert_dict d k v').1 = false ∧
      (dict_pairs (insert_dict d k v').2).Perm (dict_pairs d) ∧
      get_dict_value (insert_dict d k v').2 k = some v := by
  intro d k v v' hwf hmem
  obtain ⟨hpos, hplace, hnodup⟩ := hwf
  unfold dict_pairs at hmem
  rw [insert_dict_eq]
  set sz := (if d.keyValues.length < XSEC_THRESHOLD then d.keyValues.length * 2
    else d.keyValues.length + XSEC_FIXED_AMOUNT) with hszdef
  have hszpos : 0 < sz := by
    rw [hszdef]
    split <;> omega
  set D := (if (d.hash_size : ℚ) ≥ (d.keyValues.length : ℚ) * LOAD_FACTOR_THRESHOLD
    then resize_dict d sz else d) with hDdef
  have hDpos : 0 < D.keyValues.length := by
    rw [hDdef]
    split
    · rw [(resize_dict_spec d sz hszpos).1]
      exact hszpos
    · exact hpos
  have hDplace : ∀ i p, p ∈ D.keyValues.getD i [] →
      hash_function p.1 % D.keyValues.length = i := by
    rw [hDdef]
    split
    · intro i p hp
      rw [(resize_dict_spec d sz hszpos).1]
      exact (resize_dict_spec d sz hszpos).2.1 i p hp
    · intro i p hp
      by_cases hi : i < d.keyValues.length
      · exact hplace i hi p hp
      · rw [List.getD_eq_getElem?_getD, List.getElem?_eq_none (by omega)] at hp
        simp at hp
  have hDperm : D.keyValues.flatten.Perm d.keyValues.flatten := by
    rw [hDdef]
    split
    · exact (resize_dict_spec d sz hszpos).2.2
    · exact List.Perm.refl _
  have hmemD : (k, v) ∈ D.keyValues.flatten := hDperm.mem_iff.mpr hmem
  obtain ⟨i, hi, hbk⟩ := mem_flatten_getD hmemD
  have hieq : hash_function k % D.keyValues.length = i := hDplace i (k, v) hbk
  rw [← hieq] at hbk
  have hany : (D.keyValues.getD (hash_function k % D.keyValues.length) []).any
      (fun p => p.1 = k) = true := by
    rw [List.any_eq_true]
    exact ⟨(k, v), hbk, by simp⟩
  dsimp only
  rw [if_pos hany]
  refine ⟨rfl, ?_, ?_⟩
  · unfold dict_pairs
    exact hDperm
  · have hnodupD : (D.keyValues.flatten.map Prod.fst).Nodup :=
      (List.Perm.nodup_iff (hDperm.map Prod.fst)).mpr hnodup
    unfold get_dict_value
    dsimp only
    obtain ⟨q, hq⟩ : ∃ q, (D.keyValues.getD (hash_function k % D.keyValues.length) []).find?
        (fun p => p.1 = k) = some q := by
      have hsome : ((D.keyValues.getD (hash_function k % D.keyValues.length) []).find?
          (fun p => p.1 = k)).isSome := by
        rw [List.find?_isSome]
        exact ⟨(k, v), hbk, by simp⟩
      exact Option.isSome_iff_exists.mp hsome
    rw [hq]
    have hqk : q.1 = k := by
      have := List.find?_some hq
      simpa using this
    have hqmem : q ∈ D.keyValues.flatten := getD_mem_flatten (List.mem_of_find?_eq_some hq)
    have hqeq : q = (k, v) := by
      refine List.inj_on_of_nodup_map hnodupD hqmem hmemD ?_
      simp [hqk]
    rw [hqeq]
    rfl

/-- Claim C5, witness: The fresh map after inserting `"One" ↦ 1` is
well-formed and contains that pair; re-inserting `"One" ↦ 2` fails,
preserves the pairs, and `get("One")` still yields 1. -/
theorem claim_C5_duplicate_insert_witness :
    dict_wf dict_one ∧ ("One", (1 : ℚ)) ∈ dict_pairs dict_one ∧
    (insert_dict dict_one "One" 2).1 = false ∧
    (dict_pairs (insert_dict dict_one "One" 2).2).Perm (dict_pairs dict_one) ∧
    get_dict_value (insert_dict dict_one "One" 2).2 "One" = some 1 := by
  have h := claim_C5_duplicate_insert dict_one "One" 1 2
    (by unfold dict_wf; with_unfolding_all decide)
    (by with_unfolding_all decide)
  exact ⟨by unfold dict_wf; with_unfolding_all decide,
    by with_unfolding_all decide, h.1, h.2.1, h.2.2⟩

-- ================================================================
-- C1: search and interpolation

theorem fi_loop_spec (array : List ℚ) (value : ℚ)
    (hsorted : ∀ j, j < array.length → ∀ i, i < j →
      array.getD i 0 < array.getD j 0)
    (h0 : array.getD 0 0 ≤ value)
    (hub : ¬ array.getD (array.length - 1) 0 < value) :
    ∀ (fuel low high : ℕ),
      high < array.length →
      low ≤ high + 1 →
      high + 1 - low < fuel →
      (∀ i, i < low → array.getD i 0 < value) →
      (∀ i, high < i → i < array.length → value < array.getD i 0) →
      (∃ j, fi_loop array value fuel low high = .exact j ∧
        j < array.length ∧ array.getD j 0 = value) ∨
      (∃ l, fi_loop array value fuel low high = .between l (l + 1) ∧
        l + 1 < array.length ∧ array.getD l 0 < value ∧
        value < array.getD (l + 1) 0) := by
  intro fuel
  induction fuel with
  | zero => intro low high _ _ hf _ _; omega
  | succ fuel ih =>
    intro low high hhlen hlh hf hlow hhigh
    simp only [fi_loop]
    by_cases hcase : low ≤ high
    · rw [if_pos hcase]
      have hmid_le : low + (high - low) / 2 ≤ high := by
        have hd : (high - low) / 2 ≤ high - low := Nat.div_le_self _ _
        omega
      set mid := low + (high - low) / 2 with hmid
      have hmid_ge : low ≤ mid := by omega
      by_cases heq : array.getD mid 0 = value
      · rw [if_pos heq]
        exact Or.inl ⟨mid, rfl, by omega, heq⟩
      · rw [if_neg heq]
        by_cases hlt : array.getD mid 0 < value
        · rw [if_pos hlt]
          refine ih (mid + 1) high hhlen (by omega) (by omega) ?_ hhigh
          intro i hi
          have hile : i ≤ mid := by omega
          rcases eq_or_lt_of_le hile with rfl | hi2
          · exact hlt
          · exact lt_trans (hsorted mid (by omega) i hi2) hlt
        · rw [if_neg hlt]
          have hgt : value < array.getD mid 0 :=
            lt_of_le_of_ne (not_lt.mp hlt) (fun h => heq h.symm)
          by_cases hm0 : mid = 0
          · exfalso
            rw [hm0] at hgt
            exact absurd h0 (not_le.mpr hgt)
          · rw [if_neg hm0]
            refine ih low (mid - 1) (by omega) (by omega) (by omega) hlow ?_
            intro i hi1 hi2
            have hmi : mid ≤ i := by omega
            rcases eq_or_lt_of_le hmi with rfl | hmi2
            · exact hgt
            · exact lt_trans hgt (hsorted i hi2 mid hmi2)
    · rw [if_neg hcase]
      have hlh2 : low = high + 1 := by omega
      have hl1 : high + 1 < array.length := by
        by_contra hna
        push_neg at hna
        exact hub (hlow (array.length - 1) (by omega))
      right
      exact ⟨high, by rw [hlh2], hl1, hlow high (by omega),
        hhigh (high + 1) (by omega) hl1⟩

/-- Claim C1: For every table with `length ≥ 1`, equal-length arrays and
strictly ascending energy keys: a query below `keys[0]` or above
`keys[length-1]` fails with `OutOfRange` (the `-1.0` sentinel, `none`);
a query equal to `keys[i]` returns `values[i]`; a query strictly between
the adjacent keys `keys[l] < energy < keys[l+1]` (which makes `l` the last
index with `keys[l] < energy` and `upper = l+1`) returns
`values[l] + (values[l+1]-values[l]) * (energy-keys[l]) / (keys[l+1]-keys[l])`.
On the spec's five-sample table the quoted queries evaluate as claimed. -/
theorem claim_C1_interpolation :
    (∀ (x : xsec_t) (energy : ℚ),
      1 ≤ x.xs.length →
      x.energy.length = x.xs.length →
      (∀ j, j < x.energy.length → ∀ i, i < j →
        x.energy.getD i 0 < x.energy.getD j 0) →
      ((energy < x.energy.getD 0 0 ∨ x.energy.getD (x.xs.length - 1) 0 < energy →
          interp_xsec x energy = none) ∧
        (∀ i, i < x.xs.length → energy = x.energy.getD i 0 →
          interp_xsec x energy = some (x.xs.getD i 0)) ∧
        (∀ l, l + 1 < x.xs.length →
          x.energy.getD l 0 < energy → energy < x.energy.getD (l + 1) 0 →
          (∀ m, m < x.xs.length → x.energy.getD m 0 < energy → m ≤ l) ∧
          interp_xsec x energy =
            some (x.xs.getD l 0 +
              (x.xs.getD (l + 1) 0 - x.xs.getD l 0) *
                (energy - x.energy.getD l 0) /
                (x.energy.getD (l + 1) 0 - x.energy.getD l 0))))) ∧
    interp_xsec sample_table (5 / 2) = some 25 ∧
    interp_xsec sample_table 3 = some 30 ∧
    interp_xsec sample_table 1 = some 10 ∧
    interp_xsec sample_table 5 = some 50 := by
  constructor
  · intro x energy hlen1 hlen hsorted
    have hlen0 : ¬ x.xs.length = 0 := by omega
    refine ⟨?_, ?_, ?_⟩
    · intro hcase
      unfold interp_xsec
      rw [if_neg hlen0]
      unfold find_indices
      dsimp only
      by_cases hb : energy < x.energy.getD 0 0
      · rw [if_pos hb]
      · rw [if_neg hb]
        have ha : x.energy.getD (x.xs.length - 1) 0 < energy := by
          rcases hcase with h | h
          · exact absurd h hb
          · exact h
        rw [if_pos ha]
    · intro i hi hiv
      have h0le : x.energy.getD 0 0 ≤ energy := by
        rcases Nat.eq_zero_or_pos i with rfl | hipos
        · exact le_of_eq hiv.symm
        · rw [hiv]
          exact le_of_lt (hsorted i (by omega) 0 hipos)
      have hble : ¬ energy < x.energy.getD 0 0 := not_lt.mpr h0le
      have hub : ¬ x.energy.getD (x.energy.length - 1) 0 < energy := by
        push_neg
        rcases eq_or_lt_of_le (show i ≤ x.energy.length - 1 by omega) with heq2 | hlt2
        · rw [hiv, heq2]
        · rw [hiv]
          exact le_of_lt (hsorted (x.energy.length - 1) (by omega) i hlt2)
      have hub' : ¬ x.energy.getD (x.xs.length - 1) 0 < energy := by
        rw [← hlen]
        exact hub
      have hspec := fi_loop_spec x.energy energy hsorted h0le hub
        (x.xs.length + 1) 0 (x.xs.length - 1)
        (by omega) (by omega) (by omega)
        (by intro i2 hi2; exact absurd hi2 (Nat.not_lt_zero _))
        (by intro i2 h1 h2; omega)
      rcases hspec with ⟨j, hj, hjlen, hjval⟩ | ⟨l, hl, hllen, hlv, hlv2⟩
      · have hji : j = i := by
          rcases lt_trichotomy j i with h | h | h
          · exact absurd (hjval.trans hiv) (ne_of_lt (hsorted i (by omega) j h))
          · exact h
          · exact absurd (hiv.symm.trans hjval.symm)
              (ne_of_lt (hsorted j (by omega) i h))
        unfold interp_xsec
        rw [if_neg hlen0]
        have hfind : find_indices x.energy x.xs.length energy = FindRes.exact j := by
          unfold find_indices
          dsimp only
          rw [if_neg hble, if_neg hub']
          exact hj
        rw [hfind]
        dsimp only
        rw [hji]
      · exfalso
        rcases Nat.lt_or_ge i (l + 1) with h | h
        · have hle : x.energy.getD i 0 ≤ x.energy.getD l 0 := by
            rcases eq_or_lt_of_le (show i ≤ l by omega) with rfl | hlt2
            · exact le_refl _
            · exact le_of_lt (hsorted l (by omega) i hlt2)
          rw [← hiv] at hle
          exact absurd hlv (not_lt.mpr hle)
        · have hge : x.energy.getD (l + 1) 0 ≤ x.energy.getD i 0 := by
            rcases eq_or_lt_of_le h with heq2 | hlt2
            · rw [heq2]
            · exact le_of_lt (hsorted i (by omega) (l + 1) hlt2)
          rw [← hiv] at hge
          exact absurd hlv2 (not_lt.mpr hge)
    · intro l hl1 hlv hlv2
      have h0l : x.energy.getD 0 0 ≤ x.energy.getD l 0 := by
        rcases Nat.eq_zero_or_pos l with rfl | hp
        · exact le_refl _
        · exact le_of_lt (hsorted l (by omega) 0 hp)
      have h0le : x.energy.getD 0 0 ≤ energy := le_of_lt (lt_of_le_of_lt h0l hlv)
      have hble : ¬ energy < x.energy.getD 0 0 := not_lt.mpr h0le
      have hub : ¬ x.energy.getD (x.energy.length - 1) 0 < energy := by
        push_neg
        have hup : x.energy.getD (l + 1) 0 ≤ x.energy.getD (x.energy.length - 1) 0 := by
          rcases eq_or_lt_of_le (show l + 1 ≤ x.energy.length - 1 by omega) with heq2 | hlt2
          · rw [heq2]
          · exact le_of_lt (hsorted (x.energy.length - 1) (by omega) (l + 1) hlt2)
        exact le_trans (le_of_lt hlv2) hup
      have hub' : ¬ x.energy.getD (x.xs.length - 1) 0 < energy := by
        rw [← hlen]
        exact hub
      have hspec := fi_loop_spec x.energy energy hsorted h0le hub
        (x.xs.length + 1) 0 (x.xs.length - 1)
        (by omega) (by omega) (by omega)
        (by intro i2 hi2; exact absurd hi2 (Nat.not_lt_zero _))
        (by intro i2 h1 h2; omega)
      rcases hspec with ⟨j, hj, hjlen, hjval⟩ | ⟨l', hl', hllen', hlv', hlv2'⟩
      · exfalso
        rcases Nat.lt_or_ge j (l + 1) with h | h
        · have hle : x.energy.getD j 0 ≤ x.energy.getD l 0 := by
            rcases eq_or_lt_of_le (show j ≤ l by omega) with rfl | hlt2
            · exact le_refl _
            · exact le_of_lt (hsorted l (by omega) j hlt2)
          rw [hjval] at hle
          exact absurd hlv (not_lt.mpr hle)
        · have hge : x.energy.getD (l + 1) 0 ≤ x.energy.getD j 0 := by
            rcases eq_or_lt_of_le h with heq2 | hlt2
            · rw [heq2]
            · exact le_of_lt (hsorted j (by omega) (l + 1) hlt2)
          rw [hjval] at hge
          exact absurd hlv2 (not_lt.mpr hge)
      · have hll : l' = l := by
          rcases lt_trichotomy l' l with h | h | h
          · exfalso
            have hq : x.energy.getD (l' + 1) 0 ≤ x.energy.getD l 0 := by
              rcases eq_or_lt_of_le (show l' + 1 ≤ l by omega) with heq2 | hlt2
              · rw [heq2]
              · exact le_of_lt (hsorted l (by omega) (l' + 1) hlt2)
            exact absurd hlv2' (not_lt.mpr (le_of_lt (lt_of_le_of_lt hq hlv)))
          · exact h
          · exfalso
            have hq : x.energy.getD (l + 1) 0 ≤ x.energy.getD l' 0 := by
              rcases eq_or_lt_of_le (show l + 1 ≤ l' by omega) with heq2 | hlt2
              · rw [heq2]
              · exact le_of_lt (hsorted l' (by omega) (l + 1) hlt2)
            exact absurd hlv2 (not_lt.mpr (le_of_lt (lt_of_le_of_lt hq hlv')))
        constructor
        · intro m hm hme
          by_contra hgt
          push_neg at hgt
          have hq : x.energy.getD (l + 1) 0 ≤ x.energy.getD m 0 := by
            rcases eq_or_lt_of_le (show l + 1 ≤ m by omega) with heq2 | hlt2
            · rw [heq2]
            · exact le_of_lt (hsorted m (by omega) (l + 1) hlt2)
          exact absurd hlv2 (not_lt.mpr (le_of_lt (lt_of_le_of_lt hq hme)))
        · unfold interp_xsec
          rw [if_neg hlen0]
          have hfind : find_indices x.energy x.xs.length energy =
              FindRes.between l (l + 1) := by
            unfold find_indices
            dsimp only
            rw [if_neg hble, if_neg hub']
            rw [← hll]
            exact hl'
          rw [hfind]
  · refine ⟨?_, ?_, ?_, ?_⟩ <;> with_unfolding_all decide

/-- Claim C1, witness: The general theorem applied to the five-sample
table: `interpolate(0.5)` is out of range, `interpolate(3)` is the exact
match `values[2]`, and `interpolate(2.5)` is the interpolation between
indices 1 and 2. -/
theorem claim_C1_interpolation_witness :
    interp_xsec sample_table (1 / 2) = none ∧
    interp_xsec sample_table 3 = some (sample_table.xs.getD 2 0) ∧
    interp_xsec sample_table (5 / 2) =
      some (sample_table.xs.getD 1 0 +
        (sample_table.xs.getD 2 0 - sample_table.xs.getD 1 0) *
          ((5 / 2 : ℚ) - sample_table.energy.getD 1 0) /
          (sample_table.energy.getD 2 0 - sample_table.energy.getD 1 0)) := by
  have hb := claim_C1_interpolation.1 sample_table (1 / 2)
    (by with_unfolding_all decide) (by with_unfolding_all decide)
    (by with_unfolding_all decide)
  have he := claim_C1_interpolation.1 sample_table 3
    (by with_unfolding_all decide) (by with_unfolding_all decide)
    (by with_unfolding_all decide)
  have hm := claim_C1_interpolation.1 sample_table (5 / 2)
    (by with_unfolding_all decide) (by with_unfolding_all decide)
    (by with_unfolding_all decide)
  refine ⟨hb.1 (Or.inl (by with_unfolding_all decide)), ?_, ?_⟩
  · exact he.2.1 2 (by with_unfolding_all decide) (by with_unfolding_all decide)
  · exact (hm.2.2 1 (by with_unfolding_all decide) (by with_unfolding_all decide)
      (by with_unfolding_all decide)).2
